import Mathlib

/-
  Verification development for the index-notation IR core of the taco
  tensor-algebra compiler (file src/include/taco/index_notation/index_notation.h).

  The repository provides the declaration surface (the header); the bodies of
  the declared functions live outside the provided sources.  Functions whose
  implementation is absent are therefore modelled from the specification, as
  noted in each doc comment.  Names ending in the word "Notation" in the C++
  sources are abbreviated with the suffix "Notn" here.
-/

namespace TacoIR

/-- Models `taco::IndexVar` (index_notation.h, lines 385-399): an identity
entity carrying a name.  In C++ identity is the address of the shared
`Content` record; here each distinct allocation is modelled by a distinct
`id`, and the name is carried alongside.  Two `IndexVar`s with the same name
but different `id`s are distinct, exactly as in the source. -/
structure IndexVar where
  id : Nat
  name : String
deriving DecidableEq, Repr

/-- Models `taco::TensorVar` (index_notation.h, lines 406-469): an identity
entity carrying a name (its type/format/schedule collaborators are external
to the core and not needed by any claim). -/
structure TensorVar where
  id : Nat
  name : String
deriving DecidableEq, Repr

/-- Models the payload of a `LiteralNode`: a scalar constant tagged by its
storage kind (integer, unsigned, floating, complex).  Floating/complex
payloads are carried as their bit patterns, which is all structural equality
needs. -/
inductive LitVal where
  | intVal (v : Int)
  | uintVal (v : Nat)
  | floatBits (v : Nat)
  | complexBits (re im : Nat)
deriving DecidableEq, Repr

/-- Models `taco::Access` (index_notation.h, lines 177-209): a tensor
accessed at an ordered sequence of index variables.  The positions may be
empty (scalar access). -/
structure Access where
  tensorVar : TensorVar
  indexVars : List IndexVar
deriving DecidableEq, Repr

/-- Models the `taco::IndexExpr` node hierarchy (index_notation.h):
`AccessNode`, `LiteralNode`, `ReductionNode`, unary negation and the four
binary arithmetic nodes.  The spec's data model (section 3) lists exactly
these alternatives; nodes are immutable values. -/
inductive IndexExpr where
  | access (a : Access)
  | literal (v : LitVal)
  | reduction (op : IndexExpr) (var : IndexVar) (body : IndexExpr)
  | neg (e : IndexExpr)
  | add (lhs rhs : IndexExpr)
  | sub (lhs rhs : IndexExpr)
  | mul (lhs rhs : IndexExpr)
  | div (lhs rhs : IndexExpr)
deriving DecidableEq, Repr

/-- Models the `taco::IndexStmt` node hierarchy (index_notation.h):
`AssignmentNode`, `ForallNode`, `WhereNode`, `MultiNode`, `SequenceNode`.
An assignment's `op` is the optional compound operator: `none` is the plain
assignment `=` (the default-constructed, undefined `IndexExpr` in C++),
`some e` the compound form whose combinator kind is `e`'s kind (the spec,
section 3, notes the operands of `op` are ignored, only its kind matters). -/
inductive IndexStmt where
  | assignment (lhs : Access) (rhs : IndexExpr) (op : Option IndexExpr)
  | forallStmt (var : IndexVar) (stmt : IndexStmt)
  | whereStmt (consumer producer : IndexStmt)
  | multi (stmt1 stmt2 : IndexStmt)
  | sequence (definition mutation : IndexStmt)
deriving DecidableEq, Repr

/-- Models the `taco::Assignment` handle class (index_notation.h, lines
275-307): an `IndexStmt` handle statically known to wrap an
`AssignmentNode`, i.e. exactly the payload of an assignment node. -/
structure Assignment where
  lhs : Access
  rhs : IndexExpr
  op : Option IndexExpr
deriving DecidableEq, Repr

/-- The statement wrapped by an `Assignment` handle. -/
def Assignment.toStmt (a : Assignment) : IndexStmt :=
  .assignment a.lhs a.rhs a.op

/-- Models the combinator expression used by `sum`: in the source `sum`
builds a `ReductionNode` whose `op` is an addition node with placeholder
operands (only the node's kind is consulted). -/
def addCombinator : IndexExpr :=
  .add (.literal (.intVal 0)) (.literal (.intVal 0))

/-- Models `taco::sum` (index_notation.h, lines 236-237): create a summation
index expression, a `Reduction` whose combinator is addition. -/
def sum (i : IndexVar) (e : IndexExpr) : IndexExpr :=
  .reduction addCombinator i e

/-- Remove duplicates from a list of index variables, keeping the first
occurrence of each variable and dropping any variable already in `seen`.
This models the seen-set idiom the source uses to return variable lists
"with no duplicates" in order of first appearance. -/
def dedupFirst (seen : List IndexVar) : List IndexVar → List IndexVar
  | [] => []
  | v :: vs => if v ∈ seen then dedupFirst seen vs else v :: dedupFirst (v :: seen) vs

/-- The index variables of an expression in order of appearance, with
duplicates.  A `Reduction` contributes its bound variable and its body's
variables; the combinator `op`'s operands are placeholders and contribute
nothing (only the combinator's kind is meaningful). -/
def exprVarsRaw : IndexExpr → List IndexVar
  | .access a => a.indexVars
  | .literal _ => []
  | .reduction _ v body => v :: exprVarsRaw body
  | .neg e => exprVarsRaw e
  | .add a b => exprVarsRaw a ++ exprVarsRaw b
  | .sub a b => exprVarsRaw a ++ exprVarsRaw b
  | .mul a b => exprVarsRaw a ++ exprVarsRaw b
  | .div a b => exprVarsRaw a ++ exprVarsRaw b

/-- The index variables of a statement in order of appearance, with
duplicates.  An assignment contributes its left-hand side's and right-hand
side's variables (the compound operator is kind-only and contributes
nothing); a forall contributes its bound variable and its body's. -/
def stmtVarsRaw : IndexStmt → List IndexVar
  | .assignment lhs rhs _ => lhs.indexVars ++ exprVarsRaw rhs
  | .forallStmt v s => v :: stmtVarsRaw s
  | .whereStmt c p => stmtVarsRaw c ++ stmtVarsRaw p
  | .multi s1 s2 => stmtVarsRaw s1 ++ stmtVarsRaw s2
  | .sequence d m => stmtVarsRaw d ++ stmtVarsRaw m

/-- Modelled from the spec: `getIndexVars(const IndexExpr&)`
(index_notation.h, line 156) whose body is absent from the sources — all
index variables of the expression, first appearance first, no duplicates. -/
def getIndexVarsOfExpr (e : IndexExpr) : List IndexVar :=
  dedupFirst [] (exprVarsRaw e)

/-- Modelled from the spec: `IndexStmt::getIndexVars` (index_notation.h,
lines 250-251) whose body is absent from the sources — "the set of all free
and reduction index variables appearing in the statement, with no
duplicates" (spec section 4.1). -/
def IndexStmt.getIndexVars (s : IndexStmt) : List IndexVar :=
  dedupFirst [] (stmtVarsRaw s)

/-- Models `Assignment::getFreeVars` (index_notation.h, lines 299-301):
"the free index variables in the assignment, which are those used to access
the left-hand side". -/
def Assignment.getFreeVars (a : Assignment) : List IndexVar :=
  a.lhs.indexVars

/-- Modelled from the spec: `Assignment::getReductionVars`
(index_notation.h, lines 303-304) whose body is absent from the sources —
the reduction index variables, i.e. the variables appearing on the
right-hand side that are not free, in order of first appearance, with no
duplicates (glossary: "Reduction/summation variable: an index variable not
free"). -/
def Assignment.getReductionVars (a : Assignment) : List IndexVar :=
  dedupFirst a.lhs.indexVars (exprVarsRaw a.rhs)

/-- Identity comparison of `Access` components: the tensor variable and the
index-variable list are leaves compared by identity (spec section 3:
"IndexVar/TensorVar compared by identity"). -/
def equalsAccess (a b : Access) : Bool :=
  decide (a.tensorVar = b.tensorVar) && decide (a.indexVars = b.indexVars)

/-- Modelled from the spec: `equals(IndexExpr, IndexExpr)`
(index_notation.h, lines 122-123) whose body is absent from the sources —
structural value equality "defined recursively node-by-node, with
IndexVar/TensorVar compared by identity" (spec section 3). -/
def equalsExpr : IndexExpr → IndexExpr → Bool
  | .access a, .access b => equalsAccess a b
  | .literal v, .literal w => decide (v = w)
  | .reduction o1 v1 b1, .reduction o2 v2 b2 =>
      equalsExpr o1 o2 && decide (v1 = v2) && equalsExpr b1 b2
  | .neg a, .neg b => equalsExpr a b
  | .add a1 b1, .add a2 b2 => equalsExpr a1 a2 && equalsExpr b1 b2
  | .sub a1 b1, .sub a2 b2 => equalsExpr a1 a2 && equalsExpr b1 b2
  | .mul a1 b1, .mul a2 b2 => equalsExpr a1 a2 && equalsExpr b1 b2
  | .div a1 b1, .div a2 b2 => equalsExpr a1 a2 && equalsExpr b1 b2
  | _, _ => false

/-- Structural equality of the optional compound operator of an assignment:
both absent, or both present and equal. -/
def equalsOpt : Option IndexExpr → Option IndexExpr → Bool
  | none, none => true
  | some a, some b => equalsExpr a b
  | _, _ => false

/-- Modelled from the spec: `equals(IndexStmt, IndexStmt)`
(index_notation.h, lines 258-259) whose body is absent from the sources —
structural value equality, recursively node-by-node. -/
def equalsStmt : IndexStmt → IndexStmt → Bool
  | .assignment l1 r1 o1, .assignment l2 r2 o2 =>
      equalsAccess l1 l2 && equalsExpr r1 r2 && equalsOpt o1 o2
  | .forallStmt v1 s1, .forallStmt v2 s2 => decide (v1 = v2) && equalsStmt s1 s2
  | .whereStmt c1 p1, .whereStmt c2 p2 => equalsStmt c1 c2 && equalsStmt p1 p2
  | .multi a1 b1, .multi a2 b2 => equalsStmt a1 a2 && equalsStmt b1 b2
  | .sequence d1 m1, .sequence d2 m2 => equalsStmt d1 d2 && equalsStmt m1 m2
  | _, _ => false

/-! Models of the template functions `isa<SubType>` and `to<SubType>`
(index_notation.h, lines 162-168 for expressions and 264-270 for
statements).  `isa` tests the concrete tag of the underlying node.  `to`
asserts `isa` and downcasts; the assertion-failure branch of the C++
`taco_iassert` (a contract fault) is modelled by `none`, and a successful
cast returns the node's payload. -/

/-- Models `isa<Access>` on an `IndexExpr`. -/
def isaAccessE : IndexExpr → Bool
  | .access _ => true
  | _ => false

/-- Models `isa<Literal>` on an `IndexExpr`. -/
def isaLiteralE : IndexExpr → Bool
  | .literal _ => true
  | _ => false

/-- Models `isa<Reduction>` on an `IndexExpr`. -/
def isaReductionE : IndexExpr → Bool
  | .reduction _ _ _ => true
  | _ => false

/-- Models `to<Access>` on an `IndexExpr`; `none` is the contract fault. -/
def toAccessE : IndexExpr → Option Access
  | .access a => some a
  | _ => none

/-- Models `to<Literal>` on an `IndexExpr`; `none` is the contract fault. -/
def toLiteralE : IndexExpr → Option LitVal
  | .literal v => some v
  | _ => none

/-- Models `to<Reduction>` on an `IndexExpr`; `none` is the contract
fault.  A successful cast exposes the combinator, the reduction variable
and the body. -/
def toReductionE : IndexExpr → Option (IndexExpr × IndexVar × IndexExpr)
  | .reduction op v body => some (op, v, body)
  | _ => none

/-- Models `isa<Assignment>` on an `IndexStmt`. -/
def isaAssignment : IndexStmt → Bool
  | .assignment _ _ _ => true
  | _ => false

/-- Models `isa<Forall>` on an `IndexStmt`. -/
def isaForall : IndexStmt → Bool
  | .forallStmt _ _ => true
  | _ => false

/-- Models `isa<Where>` on an `IndexStmt`. -/
def isaWhere : IndexStmt → Bool
  | .whereStmt _ _ => true
  | _ => false

/-- Models `isa<Multi>` on an `IndexStmt`. -/
def isaMulti : IndexStmt → Bool
  | .multi _ _ => true
  | _ => false

/-- Models `isa<Sequence>` on an `IndexStmt`. -/
def isaSequence : IndexStmt → Bool
  | .sequence _ _ => true
  | _ => false

/-- Models `to<Assignment>` on an `IndexStmt`; `none` is the contract
fault.  A successful cast exposes the lhs access, the rhs expression and
the optional compound operator. -/
def toAssignment : IndexStmt → Option Assignment
  | .assignment lhs rhs op => some ⟨lhs, rhs, op⟩
  | _ => none

/-- Models `to<Forall>` on an `IndexStmt`; `none` is the contract fault. -/
def toForall : IndexStmt → Option (IndexVar × IndexStmt)
  | .forallStmt v s => some (v, s)
  | _ => none

/-- Models `to<Where>` on an `IndexStmt`; `none` is the contract fault. -/
def toWhere : IndexStmt → Option (IndexStmt × IndexStmt)
  | .whereStmt c p => some (c, p)
  | _ => none

/-- Models `to<Multi>` on an `IndexStmt`; `none` is the contract fault. -/
def toMulti : IndexStmt → Option (IndexStmt × IndexStmt)
  | .multi s1 s2 => some (s1, s2)
  | _ => none

/-- Models `to<Sequence>` on an `IndexStmt`; `none` is the contract
fault. -/
def toSequence : IndexStmt → Option (IndexStmt × IndexStmt)
  | .sequence d m => some (d, m)
  | _ => none

/-! Dialect classifiers.  Their bodies are absent from the sources; they are
modelled from the header's doc comments (index_notation.h, lines 474-488)
and spec section 4.2. -/

/-- A factor of an einsum product: an access or a literal, with negation
and division permitted at the leaves of a product (spec section 4.2). -/
def isEinsumFactor : IndexExpr → Bool
  | .access _ => true
  | .literal _ => true
  | .neg e => isEinsumFactor e
  | .div a b => isEinsumFactor a && isEinsumFactor b
  | _ => false

/-- A product of einsum factors. -/
def isEinsumProduct : IndexExpr → Bool
  | .mul a b => isEinsumProduct a && isEinsumProduct b
  | e => isEinsumFactor e

/-- A sum (or difference) of einsum products. -/
def isEinsumSum : IndexExpr → Bool
  | .add a b => isEinsumSum a && isEinsumSum b
  | .sub a b => isEinsumSum a && isEinsumSum b
  | e => isEinsumProduct e

/-- Modelled from the spec: `isEinsumNotation` (index_notation.h, lines
474-477) whose body is absent from the sources — "the statement is an
assignment, does not have any reduction nodes, and is a sum of product,
e.g., `a*...*b + ... + c*...*d`".  The sum-of-products grammar has no
production for `Reduction`, so it also enforces the no-reduction-node
requirement. -/
def isEinsumNotn : IndexStmt → Bool
  | .assignment _ rhs _ => isEinsumSum rhs
  | _ => false

/-- Check that every index variable used by an access in the expression is
in `bound`; a `Reduction` node adds its bound variable.  Combinator
operands are placeholders and are not checked. -/
def boundCheck : List IndexVar → IndexExpr → Bool
  | bound, .access a => a.indexVars.all fun v => decide (v ∈ bound)
  | _, .literal _ => true
  | bound, .reduction _ v body => boundCheck (v :: bound) body
  | bound, .neg e => boundCheck bound e
  | bound, .add a b => boundCheck bound a && boundCheck bound b
  | bound, .sub a b => boundCheck bound a && boundCheck bound b
  | bound, .mul a b => boundCheck bound a && boundCheck bound b
  | bound, .div a b => boundCheck bound a && boundCheck bound b

/-- Modelled from the spec: `isReductionNotation` (index_notation.h, lines
479-482) whose body is absent from the sources — "the statement is an
assignment and ... every reduction variable has a reduction node nested
above all variable uses": every use of a variable absent from the lhs index
list must sit below a `Reduction` binding it. -/
def isReductionNotn : IndexStmt → Bool
  | .assignment lhs rhs _ => boundCheck lhs.indexVars rhs
  | _ => false

/-- Whether the expression contains a `Reduction` node. -/
def hasReductionNode : IndexExpr → Bool
  | .reduction _ _ _ => true
  | .neg e => hasReductionNode e
  | .add a b => hasReductionNode a || hasReductionNode b
  | .sub a b => hasReductionNode a || hasReductionNode b
  | .mul a b => hasReductionNode a || hasReductionNode b
  | .div a b => hasReductionNode a || hasReductionNode b
  | _ => false

/-- Whether any expression computed by the statement contains a `Reduction`
node. -/
def stmtHasReduction : IndexStmt → Bool
  | .assignment _ rhs _ => hasReductionNode rhs
  | .forallStmt _ s => stmtHasReduction s
  | .whereStmt c p => stmtHasReduction c || stmtHasReduction p
  | .multi s1 s2 => stmtHasReduction s1 || stmtHasReduction s2
  | .sequence d m => stmtHasReduction d || stmtHasReduction m

/-- The forall-scoping part of the concrete-notation check: `bound` holds
the variables bound by enclosing `Forall`s (each at most once).  An
assignment requires every variable it uses to be bound, and, when it is not
compound, that no reduction variable (a rhs variable outside the lhs index
list) is used.  A forall must not rebind an already-bound variable — this
is the "bound by exactly one forall" requirement. -/
def concreteCheck : List IndexVar → IndexStmt → Bool
  | bound, .assignment lhs rhs op =>
      ((lhs.indexVars ++ exprVarsRaw rhs).all fun v => decide (v ∈ bound)) &&
      (op.isSome || (exprVarsRaw rhs).all fun v => decide (v ∈ lhs.indexVars))
  | bound, .forallStmt v s => !(decide (v ∈ bound)) && concreteCheck (v :: bound) s
  | bound, .whereStmt c p => concreteCheck bound c && concreteCheck bound p
  | bound, .multi s1 s2 => concreteCheck bound s1 && concreteCheck bound s2
  | bound, .sequence d m => concreteCheck bound d && concreteCheck bound m

/-- Modelled from the spec: `isConcreteNotation` (index_notation.h, lines
484-488) whose body is absent from the sources — "every index variable has
a forall node, there are no reduction nodes, and ... every reduction
variable use is nested inside a compound assignment statement". -/
def isConcreteNotn (s : IndexStmt) : Bool :=
  !stmtHasReduction s && concreteCheck [] s

/-! The einsum-to-reduction lowering.  Its body is absent from the sources;
it is modelled from spec section 4.3. -/

/-- Wrap an additive term in `Reduction` nodes summing every variable of
the term that is not free.  The summations use addition as the default
combinator and nest in order of first appearance in the term, first
appearance outermost. -/
def addReductions (free : List IndexVar) (e : IndexExpr) : IndexExpr :=
  (dedupFirst free (exprVarsRaw e)).foldr sum e

/-- Walk the rhs additive terms (spec section 4.3: "a variable is summed
once per additive term in which it appears") and wrap each term with the
summations over its non-free variables.  Per the spec's MTTKRP scenario
the `Reduction` nodes for the term's variables nest together around the
term. -/
def makeReductionRhs (free : List IndexVar) : IndexExpr → IndexExpr
  | .add a b => .add (makeReductionRhs free a) (makeReductionRhs free b)
  | .sub a b => .sub (makeReductionRhs free a) (makeReductionRhs free b)
  | e => addReductions free e

/-- The additive terms of an expression: the maximal non-`add`/`sub`
subtrees along the sum spine (spec section 4.3's "product terms", though
any non-sum node forms a term).  Used to state where the einsum lowering
places its `Reduction` nodes. -/
def addTerms : IndexExpr → List IndexExpr
  | .add a b => addTerms a ++ addTerms b
  | .sub a b => addTerms a ++ addTerms b
  | e => [e]

/-- Modelled from the spec: `makeReductionNotation(const Assignment&)`
(index_notation.h, line 492) whose body is absent from the sources —
"applying Einstein's summation convention to sum non-free/reduction
variables over their term".  The free variables are exactly the variables
of the lhs access. -/
def makeReductionNotn (a : Assignment) : Assignment :=
  ⟨a.lhs, makeReductionRhs a.lhs.indexVars a.rhs, a.op⟩

/-- Modelled from the spec: `makeReductionNotation(const IndexStmt&)`
(index_notation.h, line 493) whose body is absent from the sources — the
statement-level entry point; the input must be an einsum-notation
statement, hence an assignment (a non-assignment violates the precondition
and is returned unchanged). -/
def makeReductionNotnStmt : IndexStmt → IndexStmt
  | .assignment lhs rhs op => (makeReductionNotn ⟨lhs, rhs, op⟩).toStmt
  | s => s

/-! The reduction-to-concrete lowering.  Its body is absent from the
sources; it is modelled from spec section 4.4 and the header's doc comment
(lines 495-499): insert forall nodes and replace reduction nodes by
compound assignments. -/

/-- Drop every `Reduction` wrapper in the expression (spec section 4.4,
step 3: "drop the Reduction wrapper"). -/
def stripReductions : IndexExpr → IndexExpr
  | .reduction _ _ body => stripReductions body
  | .neg e => .neg (stripReductions e)
  | .add a b => .add (stripReductions a) (stripReductions b)
  | .sub a b => .sub (stripReductions a) (stripReductions b)
  | .mul a b => .mul (stripReductions a) (stripReductions b)
  | .div a b => .div (stripReductions a) (stripReductions b)
  | e => e

/-- The combinator of the first `Reduction` node of the expression, if any
(spec section 4.4, step 3: "replace the enclosing Assignment's operator
with op, making it compound"). -/
def findReductionOp : IndexExpr → Option IndexExpr
  | .reduction op _ _ => some op
  | .neg e => findReductionOp e
  | .add a b =>
      match findReductionOp a with
      | some op => some op
      | none => findReductionOp b
  | .sub a b =>
      match findReductionOp a with
      | some op => some op
      | none => findReductionOp b
  | .mul a b =>
      match findReductionOp a with
      | some op => some op
      | none => findReductionOp b
  | .div a b =>
      match findReductionOp a with
      | some op => some op
      | none => findReductionOp b
  | _ => none

/-- Modelled from the spec: `makeConcreteNotation(const Assignment&)`
(index_notation.h, line 498) whose body is absent from the sources.  The
declared return type is `Assignment`, so this overload produces the
reduction-free core assignment: each `Reduction` wrapper is dropped and the
assignment's operator becomes the reduction's combinator, making it
compound (spec section 4.4, step 3). -/
def makeConcreteNotn (a : Assignment) : Assignment :=
  match findReductionOp a.rhs with
  | some redOp => ⟨a.lhs, stripReductions a.rhs, some redOp⟩
  | none => a

/-- Peel the spine of `Reduction` nodes wrapping the whole right-hand
side: their bound variables in outermost-first order, and the expression
under the spine.  These reductions cover the entire rhs, so their scope
need not close early: they become the compound operator and outer
`Forall`s of the concrete statement (spec section 4.4, step 3). -/
def peelReductions : IndexExpr → List IndexVar × IndexExpr
  | .reduction _ v body => (v :: (peelReductions body).1, (peelReductions body).2)
  | e => ([], e)

/-- The compound operator of the concrete assignment: the combinator of the
rhs's outermost `Reduction` when the rhs is one (spec section 4.4, step 3:
"replace the enclosing Assignment's operator with op"), otherwise the
assignment's own operator. -/
def topOp : IndexExpr → Option IndexExpr → Option IndexExpr
  | .reduction rop _ _, _ => some rop
  | _, op => op

/-- Bind a list of producer statements around a consumer with `Where`
nodes: each producer is evaluated first, populating a temporary consumed
by the statement it wraps (spec section 4.4, step 4). -/
def wrapWheres (consumer : IndexStmt) (producers : List IndexStmt) : IndexStmt :=
  producers.foldl (fun acc p => .whereStmt acc p) consumer

/-- The operator-split/workspace step of the reduction-to-concrete lowering
(spec section 4.4, step 4): a `Reduction` that does not cover the whole rhs
has a sibling term, so its scope must close before that sibling is
combined.  Each such (maximal) `Reduction` subtree is replaced by a scalar
access to a fresh workspace `TensorVar`, and a producer statement is
emitted that computes the workspace: a `Forall` over the reduction variable
around a compound assignment to the workspace, with the producers of any
reductions nested inside it bound by `Where` inside that `Forall`.  `n`
numbers the fresh workspaces (all named "t", an identity namespace disjoint
from program tensors); the rewritten expression, the producer list and the
next fresh number are returned. -/
def lowerExpr : Nat → IndexExpr → IndexExpr × List IndexStmt × Nat
  | n, .reduction op v body =>
      (.access ⟨⟨n, "t"⟩, []⟩,
       [.forallStmt v
          (wrapWheres (.assignment ⟨⟨n, "t"⟩, []⟩ (lowerExpr (n + 1) body).1 (some op))
            (lowerExpr (n + 1) body).2.1)],
       (lowerExpr (n + 1) body).2.2)
  | n, .neg e => (.neg (lowerExpr n e).1, (lowerExpr n e).2.1, (lowerExpr n e).2.2)
  | n, .add a b =>
      (.add (lowerExpr n a).1 (lowerExpr (lowerExpr n a).2.2 b).1,
       (lowerExpr n a).2.1 ++ (lowerExpr (lowerExpr n a).2.2 b).2.1,
       (lowerExpr (lowerExpr n a).2.2 b).2.2)
  | n, .sub a b =>
      (.sub (lowerExpr n a).1 (lowerExpr (lowerExpr n a).2.2 b).1,
       (lowerExpr n a).2.1 ++ (lowerExpr (lowerExpr n a).2.2 b).2.1,
       (lowerExpr (lowerExpr n a).2.2 b).2.2)
  | n, .mul a b =>
      (.mul (lowerExpr n a).1 (lowerExpr (lowerExpr n a).2.2 b).1,
       (lowerExpr n a).2.1 ++ (lowerExpr (lowerExpr n a).2.2 b).2.1,
       (lowerExpr (lowerExpr n a).2.2 b).2.2)
  | n, .div a b =>
      (.div (lowerExpr n a).1 (lowerExpr (lowerExpr n a).2.2 b).1,
       (lowerExpr n a).2.1 ++ (lowerExpr (lowerExpr n a).2.2 b).2.1,
       (lowerExpr (lowerExpr n a).2.2 b).2.2)
  | n, e => (e, [], n)

/-- Modelled from the spec: `makeConcreteNotation(const IndexStmt&)`
(index_notation.h, line 499) whose body is absent from the sources — the
full algorithm of spec section 4.4.  Top-level `Reduction`s covering the
whole rhs are peeled: they make the assignment compound and contribute
`Forall`s (step 3); every remaining `Reduction` has a sibling term to
combine with, so its scope is closed through a `Where`-bound workspace
produced by an inner `Forall` statement (step 4, the operator-split
transform); finally one `Forall` per variable of the core assignment is
wrapped outside, free variables outermost in lhs order, then the peeled
reduction variables in order of appearance (steps 1-2; the workspaced
reduction variables receive their `Forall` inside their producer).  The
input must satisfy reduction notation, hence be an assignment (a
non-assignment violates the precondition and is returned unchanged). -/
def makeConcreteNotnStmt : IndexStmt → IndexStmt
  | .assignment lhs rhs op =>
      (dedupFirst [] (lhs.indexVars ++ (peelReductions rhs).1)).foldr
        (fun v acc => .forallStmt v acc)
        (wrapWheres
          (.assignment lhs (lowerExpr 0 (peelReductions rhs).2).1 (topOp rhs op))
          (lowerExpr 0 (peelReductions rhs).2).2.1)
  | s => s

/-- Whether every `Reduction` node binds a variable that is neither in
`outer` nor bound by an enclosing `Reduction`: the well-scopedness
invariant of the spec's data model (section 3: a rhs variable not on the
lhs "is bound by exactly one enclosing Reduction node", and a summation
variable is by the glossary "an index variable not free").  Called with the
lhs index list as `outer`. -/
def noShadowedReductions : List IndexVar → IndexExpr → Bool
  | outer, .reduction _ v body =>
      !(decide (v ∈ outer)) && noShadowedReductions (v :: outer) body
  | outer, .neg e => noShadowedReductions outer e
  | outer, .add a b => noShadowedReductions outer a && noShadowedReductions outer b
  | outer, .sub a b => noShadowedReductions outer a && noShadowedReductions outer b
  | outer, .mul a b => noShadowedReductions outer a && noShadowedReductions outer b
  | outer, .div a b => noShadowedReductions outer a && noShadowedReductions outer b
  | _, .access _ => true
  | _, .literal _ => true

/-- The statement-level well-scopedness condition: an assignment's rhs
reductions shadow neither the lhs variables nor each other. -/
def noShadowedReductionsStmt : IndexStmt → Bool
  | .assignment lhs rhs _ => noShadowedReductions lhs.indexVars rhs
  | _ => true

/-! The operator-splitting transform.  Its body is absent from the sources;
it is modelled from the header's doc comment (index_notation.h, lines
102-108) and spec section 4.5. -/

/-- Whether the expression node is a binary arithmetic node. -/
def isBinaryExpr : IndexExpr → Bool
  | .add _ _ => true
  | .sub _ _ => true
  | .mul _ _ => true
  | .div _ _ => true
  | _ => false

/-- Replace every use of the index variable `old` by `new`, in accesses and
in reduction bindings. -/
def substIndexVar (old new : IndexVar) : IndexExpr → IndexExpr
  | .access a => .access ⟨a.tensorVar, a.indexVars.map fun v => if v = old then new else v⟩
  | .literal v => .literal v
  | .reduction op v body =>
      .reduction op (if v = old then new else v) (substIndexVar old new body)
  | .neg e => .neg (substIndexVar old new e)
  | .add a b => .add (substIndexVar old new a) (substIndexVar old new b)
  | .sub a b => .sub (substIndexVar old new a) (substIndexVar old new b)
  | .mul a b => .mul (substIndexVar old new a) (substIndexVar old new b)
  | .div a b => .div (substIndexVar old new a) (substIndexVar old new b)

/-- The access into the temporary workspace `w` that replaces the left
operand `a` in the rewritten whole expression: the workspace is indexed by
the left operand's variables, reindexed with `right` in place of `old`. -/
def workspaceAccess (old right : IndexVar) (w : TensorVar) (a : IndexExpr) : IndexExpr :=
  .access ⟨w, (dedupFirst [] (exprVarsRaw a)).map fun v => if v = old then right else v⟩

/-- The producer assignment computing the left operand `a` into the
temporary workspace `w` over the `left` index variable. -/
def workspaceDef (old left : IndexVar) (w : TensorVar) (a : IndexExpr) : Assignment :=
  ⟨⟨w, (dedupFirst [] (exprVarsRaw a)).map fun v => if v = old then left else v⟩,
   substIndexVar old left a, none⟩

/-- Modelled from the spec: `IndexExpr::splitOperator` (index_notation.h,
lines 102-108) whose body is absent from the sources — "This operation only
has an effect for binary expressions.  The left index variable computes the
left-hand-side of the expression and stores the result in a temporary
workspace.  The right index variable computes the whole expression,
substituting the left-hand-side for the workspace."  The fresh temporary
`TensorVar` `w` is passed explicitly (name generation is a side effect
outside the tree).  The result is the rewritten whole expression, paired
with the producer assignment of the workspace (`none` for the documented
degenerate no-op on a non-binary expression). -/
def splitOperator (old left right : IndexVar) (w : TensorVar) :
    IndexExpr → IndexExpr × Option Assignment
  | .add a b =>
      (.add (workspaceAccess old right w a) (substIndexVar old right b),
       some (workspaceDef old left w a))
  | .sub a b =>
      (.sub (workspaceAccess old right w a) (substIndexVar old right b),
       some (workspaceDef old left w a))
  | .mul a b =>
      (.mul (workspaceAccess old right w a) (substIndexVar old right b),
       some (workspaceDef old left w a))
  | .div a b =>
      (.div (workspaceAccess old right w a) (substIndexVar old right b),
       some (workspaceDef old left w a))
  | e => (e, none)

/-! Shared lemmas about the embedding. -/

theorem mem_dedupFirst (l : List IndexVar) :
    ∀ seen v, v ∈ dedupFirst seen l ↔ v ∈ l ∧ v ∉ seen := by
  induction l with
  | nil => intro seen v; simp [dedupFirst]
  | cons u vs ih =>
    intro seen v
    by_cases hu : u ∈ seen
    · simp only [dedupFirst, if_pos hu, ih, List.mem_cons]
      constructor
      · rintro ⟨h1, h2⟩; exact ⟨Or.inr h1, h2⟩
      · rintro ⟨rfl | h1, h2⟩
        · exact absurd hu h2
        · exact ⟨h1, h2⟩
    · simp only [dedupFirst, if_neg hu, List.mem_cons, ih]
      constructor
      · rintro (rfl | ⟨h1, h2⟩)
        · exact ⟨Or.inl rfl, hu⟩
        · refine ⟨Or.inr h1, fun hs => h2 (Or.inr hs)⟩
      · rintro ⟨rfl | h1, h2⟩
        · exact Or.inl rfl
        · by_cases hvu : v = u
          · exact Or.inl hvu
          · refine Or.inr ⟨h1, fun hs => ?_⟩
            rcases hs with h | h
            · exact hvu h
            · exact h2 h

theorem nodup_dedupFirst (l : List IndexVar) : ∀ seen, (dedupFirst seen l).Nodup := by
  induction l with
  | nil => intro seen; simp [dedupFirst]
  | cons u vs ih =>
    intro seen
    by_cases hu : u ∈ seen
    · simpa [dedupFirst, hu] using ih seen
    · simp only [dedupFirst, if_neg hu, List.nodup_cons]
      refine ⟨fun hmem => ?_, ih _⟩
      exact ((mem_dedupFirst vs _ u).mp hmem).2 (List.mem_cons_self u seen)

theorem equalsAccess_iff (a b : Access) : equalsAccess a b = true ↔ a = b := by
  cases a; cases b; simp [equalsAccess]

theorem equalsExpr_iff (x y : IndexExpr) : equalsExpr x y = true ↔ x = y := by
  induction x generalizing y with
  | access a => cases y <;> simp [equalsExpr, equalsAccess_iff]
  | literal v => cases y <;> simp [equalsExpr]
  | reduction op v body iho ihb =>
    cases y <;> simp [equalsExpr, iho, ihb, and_assoc]
  | neg e ih => cases y <;> simp [equalsExpr, ih]
  | add a b iha ihb => cases y <;> simp [equalsExpr, iha, ihb]
  | sub a b iha ihb => cases y <;> simp [equalsExpr, iha, ihb]
  | mul a b iha ihb => cases y <;> simp [equalsExpr, iha, ihb]
  | div a b iha ihb => cases y <;> simp [equalsExpr, iha, ihb]

theorem equalsOpt_iff (x y : Option IndexExpr) : equalsOpt x y = true ↔ x = y := by
  cases x <;> cases y <;> simp [equalsOpt, equalsExpr_iff]

theorem equalsStmt_iff (x y : IndexStmt) : equalsStmt x y = true ↔ x = y := by
  induction x generalizing y with
  | assignment l r o =>
    cases y <;> simp [equalsStmt, equalsAccess_iff, equalsExpr_iff, equalsOpt_iff, and_assoc]
  | forallStmt v s ih => cases y <;> simp [equalsStmt, ih]
  | whereStmt c p ihc ihp => cases y <;> simp [equalsStmt, ihc, ihp]
  | multi s1 s2 ih1 ih2 => cases y <;> simp [equalsStmt, ih1, ih2]
  | sequence d m ihd ihm => cases y <;> simp [equalsStmt, ihd, ihm]

theorem boundCheck_of_mem :
    ∀ (e : IndexExpr) (bound : List IndexVar),
      (∀ v ∈ exprVarsRaw e, v ∈ bound) → boundCheck bound e = true := by
  intro e
  induction e with
  | access a =>
    intro bound h
    simp only [boundCheck, List.all_eq_true, decide_eq_true_eq]
    exact fun v hv => h v hv
  | literal v => intro bound h; rfl
  | reduction op v body iho ihb =>
    intro bound h
    simp only [boundCheck]
    refine ihb _ fun u hu => ?_
    exact List.mem_cons_of_mem _ (h u (List.mem_cons_of_mem _ hu))
  | neg e ih => intro bound h; exact ih bound h
  | add a b iha ihb =>
    intro bound h
    simp only [boundCheck, Bool.and_eq_true]
    exact ⟨iha bound fun v hv => h v (by simp [exprVarsRaw, hv]),
           ihb bound fun v hv => h v (by simp [exprVarsRaw, hv])⟩
  | sub a b iha ihb =>
    intro bound h
    simp only [boundCheck, Bool.and_eq_true]
    exact ⟨iha bound fun v hv => h v (by simp [exprVarsRaw, hv]),
           ihb bound fun v hv => h v (by simp [exprVarsRaw, hv])⟩
  | mul a b iha ihb =>
    intro bound h
    simp only [boundCheck, Bool.and_eq_true]
    exact ⟨iha bound fun v hv => h v (by simp [exprVarsRaw, hv]),
           ihb bound fun v hv => h v (by simp [exprVarsRaw, hv])⟩
  | div a b iha ihb =>
    intro bound h
    simp only [boundCheck, Bool.and_eq_true]
    exact ⟨iha bound fun v hv => h v (by simp [exprVarsRaw, hv]),
           ihb bound fun v hv => h v (by simp [exprVarsRaw, hv])⟩

theorem boundCheck_foldr_sum :
    ∀ (rv bound : List IndexVar) (e : IndexExpr),
      (∀ v ∈ exprVarsRaw e, v ∈ rv ∨ v ∈ bound) →
      boundCheck bound (rv.foldr sum e) = true := by
  intro rv
  induction rv with
  | nil =>
    intro bound e h
    refine boundCheck_of_mem e bound fun v hv => ?_
    rcases h v hv with h' | h'
    · exact absurd h' (List.not_mem_nil v)
    · exact h'
  | cons u rest ih =>
    intro bound e h
    simp only [List.foldr_cons, sum, boundCheck]
    refine ih (u :: bound) e fun v hv => ?_
    rcases h v hv with h' | h'
    · rcases List.mem_cons.mp h' with rfl | h''
      · exact Or.inr (List.mem_cons_self _ _)
      · exact Or.inl h''
    · exact Or.inr (List.mem_cons_of_mem _ h')

theorem boundCheck_addReductions (e : IndexExpr) (free : List IndexVar) :
    boundCheck free (addReductions free e) = true := by
  refine boundCheck_foldr_sum _ free e fun v hv => ?_
  by_cases hf : v ∈ free
  · exact Or.inr hf
  · exact Or.inl ((mem_dedupFirst (exprVarsRaw e) free v).mpr ⟨hv, hf⟩)

theorem boundCheck_makeReductionRhs (e : IndexExpr) (free : List IndexVar) :
    boundCheck free (makeReductionRhs free e) = true := by
  induction e with
  | add a b iha ihb => simp [makeReductionRhs, boundCheck, iha, ihb]
  | sub a b iha ihb => simp [makeReductionRhs, boundCheck, iha, ihb]
  | access a => exact boundCheck_addReductions _ _
  | literal v => exact boundCheck_addReductions _ _
  | reduction op v body iho ihb => exact boundCheck_addReductions _ _
  | neg e ih => exact boundCheck_addReductions _ _
  | mul a b iha ihb => exact boundCheck_addReductions _ _
  | div a b iha ihb => exact boundCheck_addReductions _ _

theorem hasReductionNode_strip (e : IndexExpr) :
    hasReductionNode (stripReductions e) = false := by
  induction e with
  | access a => rfl
  | literal v => rfl
  | reduction op v body iho ihb => simpa [stripReductions] using ihb
  | neg e ih => simpa [stripReductions, hasReductionNode] using ih
  | add a b iha ihb => simp [stripReductions, hasReductionNode, iha, ihb]
  | sub a b iha ihb => simp [stripReductions, hasReductionNode, iha, ihb]
  | mul a b iha ihb => simp [stripReductions, hasReductionNode, iha, ihb]
  | div a b iha ihb => simp [stripReductions, hasReductionNode, iha, ihb]

theorem exprVarsRaw_strip_subset (e : IndexExpr) :
    ∀ v ∈ exprVarsRaw (stripReductions e), v ∈ exprVarsRaw e := by
  induction e with
  | access a => intro v hv; exact hv
  | literal v => intro v hv; exact hv
  | reduction op u body iho ihb =>
    intro v hv
    simp only [stripReductions] at hv
    exact List.mem_cons_of_mem _ (ihb v hv)
  | neg e ih =>
    intro v hv
    simp only [stripReductions, exprVarsRaw] at hv ⊢
    exact ih v hv
  | add a b iha ihb =>
    intro v hv
    simp only [stripReductions, exprVarsRaw, List.mem_append] at hv ⊢
    rcases hv with h | h
    · exact Or.inl (iha v h)
    · exact Or.inr (ihb v h)
  | sub a b iha ihb =>
    intro v hv
    simp only [stripReductions, exprVarsRaw, List.mem_append] at hv ⊢
    rcases hv with h | h
    · exact Or.inl (iha v h)
    · exact Or.inr (ihb v h)
  | mul a b iha ihb =>
    intro v hv
    simp only [stripReductions, exprVarsRaw, List.mem_append] at hv ⊢
    rcases hv with h | h
    · exact Or.inl (iha v h)
    · exact Or.inr (ihb v h)
  | div a b iha ihb =>
    intro v hv
    simp only [stripReductions, exprVarsRaw, List.mem_append] at hv ⊢
    rcases hv with h | h
    · exact Or.inl (iha v h)
    · exact Or.inr (ihb v h)

theorem findReductionOp_isSome (e : IndexExpr) :
    (findReductionOp e).isSome = hasReductionNode e := by
  induction e with
  | access a => rfl
  | literal v => rfl
  | reduction op v body iho ihb => rfl
  | neg e ih => simpa [findReductionOp, hasReductionNode] using ih
  | add a b iha ihb =>
    simp only [findReductionOp, hasReductionNode]
    cases h : findReductionOp a with
    | some op => simp [h] at iha; simp [iha.symm]
    | none => simp [h] at iha; simp [iha.symm, ihb]
  | sub a b iha ihb =>
    simp only [findReductionOp, hasReductionNode]
    cases h : findReductionOp a with
    | some op => simp [h] at iha; simp [iha.symm]
    | none => simp [h] at iha; simp [iha.symm, ihb]
  | mul a b iha ihb =>
    simp only [findReductionOp, hasReductionNode]
    cases h : findReductionOp a with
    | some op => simp [h] at iha; simp [iha.symm]
    | none => simp [h] at iha; simp [iha.symm, ihb]
  | div a b iha ihb =>
    simp only [findReductionOp, hasReductionNode]
    cases h : findReductionOp a with
    | some op => simp [h] at iha; simp [iha.symm]
    | none => simp [h] at iha; simp [iha.symm, ihb]

theorem boundCheck_noRed_mem :
    ∀ (e : IndexExpr) (bound : List IndexVar),
      hasReductionNode e = false → boundCheck bound e = true →
      ∀ v ∈ exprVarsRaw e, v ∈ bound := by
  intro e
  induction e with
  | access a =>
    intro bound _ hb v hv
    simp only [boundCheck, List.all_eq_true, decide_eq_true_eq] at hb
    exact hb v hv
  | literal w => intro bound _ _ v hv; exact absurd hv (List.not_mem_nil v)
  | reduction op u body iho ihb => intro bound hr; simp [hasReductionNode] at hr
  | neg e ih => intro bound hr hb v hv; exact ih bound (by simpa [hasReductionNode] using hr) hb v hv
  | add a b iha ihb =>
    intro bound hr hb v hv
    simp only [hasReductionNode, Bool.or_eq_false_iff] at hr
    simp only [boundCheck, Bool.and_eq_true] at hb
    simp only [exprVarsRaw, List.mem_append] at hv
    rcases hv with h | h
    · exact iha bound hr.1 hb.1 v h
    · exact ihb bound hr.2 hb.2 v h
  | sub a b iha ihb =>
    intro bound hr hb v hv
    simp only [hasReductionNode, Bool.or_eq_false_iff] at hr
    simp only [boundCheck, Bool.and_eq_true] at hb
    simp only [exprVarsRaw, List.mem_append] at hv
    rcases hv with h | h
    · exact iha bound hr.1 hb.1 v h
    · exact ihb bound hr.2 hb.2 v h
  | mul a b iha ihb =>
    intro bound hr hb v hv
    simp only [hasReductionNode, Bool.or_eq_false_iff] at hr
    simp only [boundCheck, Bool.and_eq_true] at hb
    simp only [exprVarsRaw, List.mem_append] at hv
    rcases hv with h | h
    · exact iha bound hr.1 hb.1 v h
    · exact ihb bound hr.2 hb.2 v h
  | div a b iha ihb =>
    intro bound hr hb v hv
    simp only [hasReductionNode, Bool.or_eq_false_iff] at hr
    simp only [boundCheck, Bool.and_eq_true] at hb
    simp only [exprVarsRaw, List.mem_append] at hv
    rcases hv with h | h
    · exact iha bound hr.1 hb.1 v h
    · exact ihb bound hr.2 hb.2 v h

theorem stmtHasReduction_foldr (vs : List IndexVar) (core : IndexStmt) :
    stmtHasReduction (vs.foldr (fun v acc => .forallStmt v acc) core) =
      stmtHasReduction core := by
  induction vs with
  | nil => rfl
  | cons u rest ih => simpa [stmtHasReduction] using ih

theorem concreteCheck_foldr :
    ∀ (vs bound : List IndexVar) (core : IndexStmt), vs.Nodup →
      (∀ v ∈ vs, v ∉ bound) →
      concreteCheck (vs.reverse ++ bound) core = true →
      concreteCheck bound (vs.foldr (fun v acc => .forallStmt v acc) core) = true := by
  intro vs
  induction vs with
  | nil => intro bound core _ _ h; simpa using h
  | cons u rest ih =>
    intro bound core hnd hnb h
    simp only [List.foldr_cons, concreteCheck, Bool.and_eq_true, Bool.not_eq_true',
      decide_eq_false_iff_not]
    refine ⟨hnb u (List.mem_cons_self u rest), ?_⟩
    refine ih (u :: bound) core (List.Nodup.of_cons hnd) ?_ ?_
    · intro v hv hvb
      rcases List.mem_cons.mp hvb with rfl | hvb'
      · exact (List.nodup_cons.mp hnd).1 hv
      · exact hnb v (List.mem_cons_of_mem _ hv) hvb'
    · have : rest.reverse ++ u :: bound = (u :: rest).reverse ++ bound := by
        simp
      rw [this]
      exact h

theorem peelReductions_noRed (t : IndexExpr) (h : hasReductionNode t = false) :
    peelReductions t = ([], t) := by
  cases t <;> first | rfl | simp [hasReductionNode] at h

theorem peelReductions_foldr_sum (t : IndexExpr) (h : hasReductionNode t = false) :
    ∀ vs : List IndexVar, peelReductions (vs.foldr sum t) = (vs, t) := by
  intro vs
  induction vs with
  | nil => simpa using peelReductions_noRed t h
  | cons u rest ih => simp [sum, peelReductions, ih]

theorem boundCheck_peel :
    ∀ (e : IndexExpr) (B : List IndexVar), boundCheck B e = true →
      boundCheck ((peelReductions e).1.reverse ++ B) (peelReductions e).2 = true := by
  intro e
  induction e with
  | reduction op v body iho ihb =>
    intro B h
    have h' : boundCheck (v :: B) body = true := h
    have := ihb (v :: B) h'
    simpa [peelReductions, List.reverse_cons, List.append_assoc] using this
  | access a => intro B h; simpa using h
  | literal w => intro B h; simpa using h
  | neg e ih => intro B h; simpa using h
  | add a b iha ihb => intro B h; simpa using h
  | sub a b iha ihb => intro B h; simpa using h
  | mul a b iha ihb => intro B h; simpa using h
  | div a b iha ihb => intro B h; simpa using h

theorem noShadow_peel :
    ∀ (e : IndexExpr) (outer : List IndexVar), noShadowedReductions outer e = true →
      noShadowedReductions ((peelReductions e).1.reverse ++ outer) (peelReductions e).2
        = true := by
  intro e
  induction e with
  | reduction op v body iho ihb =>
    intro outer h
    simp only [noShadowedReductions, Bool.and_eq_true] at h
    have := ihb (v :: outer) h.2
    simpa [peelReductions, List.reverse_cons, List.append_assoc] using this
  | access a => intro outer h; simpa using h
  | literal w => intro outer h; simpa using h
  | neg e ih => intro outer h; simpa using h
  | add a b iha ihb => intro outer h; simpa using h
  | sub a b iha ihb => intro outer h; simpa using h
  | mul a b iha ihb => intro outer h; simpa using h
  | div a b iha ihb => intro outer h; simpa using h

theorem stmtHasReduction_wrapWheres :
    ∀ (ps : List IndexStmt) (c : IndexStmt), stmtHasReduction c = false →
      (∀ p ∈ ps, stmtHasReduction p = false) →
      stmtHasReduction (wrapWheres c ps) = false := by
  intro ps
  induction ps with
  | nil => intro c hc _; simpa [wrapWheres] using hc
  | cons p rest ih =>
    intro c hc hp
    show stmtHasReduction (wrapWheres (.whereStmt c p) rest) = false
    exact ih (.whereStmt c p)
      (by simp [stmtHasReduction, hc, hp p (List.mem_cons_self p rest)])
      (fun q hq => hp q (List.mem_cons_of_mem _ hq))

theorem concreteCheck_wrapWheres :
    ∀ (ps : List IndexStmt) (bound : List IndexVar) (c : IndexStmt),
      concreteCheck bound c = true → (∀ p ∈ ps, concreteCheck bound p = true) →
      concreteCheck bound (wrapWheres c ps) = true := by
  intro ps
  induction ps with
  | nil => intro bound c hc _; simpa [wrapWheres] using hc
  | cons p rest ih =>
    intro bound c hc hp
    show concreteCheck bound (wrapWheres (.whereStmt c p) rest) = true
    exact ih bound (.whereStmt c p)
      (by simp [concreteCheck, hc, hp p (List.mem_cons_self p rest)])
      (fun q hq => hp q (List.mem_cons_of_mem _ hq))

theorem lowerExpr_fst_noRed :
    ∀ (e : IndexExpr) (n : Nat), hasReductionNode (lowerExpr n e).1 = false := by
  intro e
  induction e with
  | access a => intro n; rfl
  | literal v => intro n; rfl
  | reduction op v body iho ihb => intro n; rfl
  | neg e ih => intro n; simpa [lowerExpr, hasReductionNode] using ih n
  | add a b iha ihb => intro n; simp [lowerExpr, hasReductionNode, iha, ihb]
  | sub a b iha ihb => intro n; simp [lowerExpr, hasReductionNode, iha, ihb]
  | mul a b iha ihb => intro n; simp [lowerExpr, hasReductionNode, iha, ihb]
  | div a b iha ihb => intro n; simp [lowerExpr, hasReductionNode, iha, ihb]

theorem lowerExpr_prods_noRed :
    ∀ (e : IndexExpr) (n : Nat), ∀ p ∈ (lowerExpr n e).2.1,
      stmtHasReduction p = false := by
  intro e
  induction e with
  | access a => intro n p hp; simp [lowerExpr] at hp
  | literal v => intro n p hp; simp [lowerExpr] at hp
  | reduction op v body iho ihb =>
    intro n p hp
    simp only [lowerExpr, List.mem_singleton] at hp
    subst hp
    show stmtHasReduction (.forallStmt v _) = false
    simp only [stmtHasReduction]
    exact stmtHasReduction_wrapWheres _ _
      (by simp [stmtHasReduction, lowerExpr_fst_noRed]) (ihb (n + 1))
  | neg e ih =>
    intro n p hp
    simp only [lowerExpr] at hp
    exact ih n p hp
  | add a b iha ihb =>
    intro n p hp
    simp only [lowerExpr] at hp
    rcases List.mem_append.mp hp with h | h
    · exact iha n p h
    · exact ihb _ p h
  | sub a b iha ihb =>
    intro n p hp
    simp only [lowerExpr] at hp
    rcases List.mem_append.mp hp with h | h
    · exact iha n p h
    · exact ihb _ p h
  | mul a b iha ihb =>
    intro n p hp
    simp only [lowerExpr] at hp
    rcases List.mem_append.mp hp with h | h
    · exact iha n p h
    · exact ihb _ p h
  | div a b iha ihb =>
    intro n p hp
    simp only [lowerExpr] at hp
    rcases List.mem_append.mp hp with h | h
    · exact iha n p h
    · exact ihb _ p h

theorem lowerExpr_vars_bound :
    ∀ (e : IndexExpr) (B : List IndexVar) (n : Nat), boundCheck B e = true →
      ∀ v ∈ exprVarsRaw (lowerExpr n e).1, v ∈ B := by
  intro e
  induction e with
  | access a =>
    intro B n h v hv
    simp only [lowerExpr, exprVarsRaw] at hv
    simp only [boundCheck, List.all_eq_true, decide_eq_true_eq] at h
    exact h v hv
  | literal w => intro B n h v hv; simp [lowerExpr, exprVarsRaw] at hv
  | reduction op u body iho ihb =>
    intro B n h v hv
    simp [lowerExpr, exprVarsRaw, Access.indexVars] at hv
  | neg e ih =>
    intro B n h v hv
    simp only [lowerExpr, exprVarsRaw] at hv
    exact ih B n h v hv
  | add a b iha ihb =>
    intro B n h v hv
    simp only [boundCheck, Bool.and_eq_true] at h
    simp only [lowerExpr, exprVarsRaw, List.mem_append] at hv
    rcases hv with hv | hv
    · exact iha B n h.1 v hv
    · exact ihb B _ h.2 v hv
  | sub a b iha ihb =>
    intro B n h v hv
    simp only [boundCheck, Bool.and_eq_true] at h
    simp only [lowerExpr, exprVarsRaw, List.mem_append] at hv
    rcases hv with hv | hv
    · exact iha B n h.1 v hv
    · exact ihb B _ h.2 v hv
  | mul a b iha ihb =>
    intro B n h v hv
    simp only [boundCheck, Bool.and_eq_true] at h
    simp only [lowerExpr, exprVarsRaw, List.mem_append] at hv
    rcases hv with hv | hv
    · exact iha B n h.1 v hv
    · exact ihb B _ h.2 v hv
  | div a b iha ihb =>
    intro B n h v hv
    simp only [boundCheck, Bool.and_eq_true] at h
    simp only [lowerExpr, exprVarsRaw, List.mem_append] at hv
    rcases hv with hv | hv
    · exact iha B n h.1 v hv
    · exact ihb B _ h.2 v hv

theorem lowerExpr_prods_check :
    ∀ (e : IndexExpr) (B bound : List IndexVar) (n : Nat),
      boundCheck B e = true → noShadowedReductions B e = true →
      (∀ v, v ∈ B ↔ v ∈ bound) →
      ∀ p ∈ (lowerExpr n e).2.1, concreteCheck bound p = true := by
  intro e
  induction e with
  | access a => intro B bound n hb hn hiff p hp; simp [lowerExpr] at hp
  | literal w => intro B bound n hb hn hiff p hp; simp [lowerExpr] at hp
  | reduction op v body iho ihb =>
    intro B bound n hb hn hiff p hp
    simp only [lowerExpr, List.mem_singleton] at hp
    subst hp
    simp only [noShadowedReductions, Bool.and_eq_true, Bool.not_eq_true',
      decide_eq_false_iff_not] at hn
    have hbbody : boundCheck (v :: B) body = true := hb
    have hiff' : ∀ u, u ∈ (v :: B) ↔ u ∈ (v :: bound) := by
      intro u
      simp only [List.mem_cons, hiff u]
    show concreteCheck bound (.forallStmt v _) = true
    simp only [concreteCheck, Bool.and_eq_true, Bool.not_eq_true',
      decide_eq_false_iff_not]
    refine ⟨fun hvb => hn.1 ((hiff v).mpr hvb), ?_⟩
    refine concreteCheck_wrapWheres _ _ _ ?_ ?_
    · simp only [concreteCheck, Bool.and_eq_true, List.all_eq_true, decide_eq_true_eq,
        Bool.or_eq_true]
      refine ⟨?_, Or.inl (by simp)⟩
      intro u hu
      simp only [List.mem_append] at hu
      rcases hu with hu | hu
      · simp [Access.indexVars] at hu
      · exact (hiff' u).mp (lowerExpr_vars_bound body (v :: B) (n + 1) hbbody u hu)
    · intro q hq
      exact ihb (v :: B) (v :: bound) (n + 1) hbbody hn.2 hiff' q hq
  | neg e ih =>
    intro B bound n hb hn hiff p hp
    simp only [lowerExpr] at hp
    exact ih B bound n hb hn hiff p hp
  | add a b iha ihb =>
    intro B bound n hb hn hiff p hp
    simp only [boundCheck, Bool.and_eq_true] at hb
    simp only [noShadowedReductions, Bool.and_eq_true] at hn
    simp only [lowerExpr] at hp
    rcases List.mem_append.mp hp with h | h
    · exact iha B bound n hb.1 hn.1 hiff p h
    · exact ihb B bound _ hb.2 hn.2 hiff p h
  | sub a b iha ihb =>
    intro B bound n hb hn hiff p hp
    simp only [boundCheck, Bool.and_eq_true] at hb
    simp only [noShadowedReductions, Bool.and_eq_true] at hn
    simp only [lowerExpr] at hp
    rcases List.mem_append.mp hp with h | h
    · exact iha B bound n hb.1 hn.1 hiff p h
    · exact ihb B bound _ hb.2 hn.2 hiff p h
  | mul a b iha ihb =>
    intro B bound n hb hn hiff p hp
    simp only [boundCheck, Bool.and_eq_true] at hb
    simp only [noShadowedReductions, Bool.and_eq_true] at hn
    simp only [lowerExpr] at hp
    rcases List.mem_append.mp hp with h | h
    · exact iha B bound n hb.1 hn.1 hiff p h
    · exact ihb B bound _ hb.2 hn.2 hiff p h
  | div a b iha ihb =>
    intro B bound n hb hn hiff p hp
    simp only [boundCheck, Bool.and_eq_true] at hb
    simp only [noShadowedReductions, Bool.and_eq_true] at hn
    simp only [lowerExpr] at hp
    rcases List.mem_append.mp hp with h | h
    · exact iha B bound n hb.1 hn.1 hiff p h
    · exact ihb B bound _ hb.2 hn.2 hiff p h

theorem topOp_spec :
    ∀ (e : IndexExpr) (op : Option IndexExpr),
      (∃ rop, topOp e op = some rop) ∨ (topOp e op = op ∧ peelReductions e = ([], e)) := by
  intro e op
  cases e with
  | reduction rop v body => exact Or.inl ⟨rop, rfl⟩
  | access a => exact Or.inr ⟨rfl, rfl⟩
  | literal v => exact Or.inr ⟨rfl, rfl⟩
  | neg e => exact Or.inr ⟨rfl, rfl⟩
  | add a b => exact Or.inr ⟨rfl, rfl⟩
  | sub a b => exact Or.inr ⟨rfl, rfl⟩
  | mul a b => exact Or.inr ⟨rfl, rfl⟩
  | div a b => exact Or.inr ⟨rfl, rfl⟩

theorem addTerms_addReductions (free : List IndexVar) (e : IndexExpr)
    (h : addTerms e = [e]) :
    addTerms (addReductions free e) = [addReductions free e] := by
  unfold addReductions
  cases hv : dedupFirst free (exprVarsRaw e) with
  | nil => simpa using h
  | cons u rest => rfl

theorem addTerms_makeReductionRhs :
    ∀ (free : List IndexVar) (e : IndexExpr),
      addTerms (makeReductionRhs free e) = (addTerms e).map (addReductions free) := by
  intro free e
  induction e with
  | add a b iha ihb => simp [makeReductionRhs, addTerms, iha, ihb]
  | sub a b iha ihb => simp [makeReductionRhs, addTerms, iha, ihb]
  | access a => exact addTerms_addReductions free _ rfl
  | literal v => exact addTerms_addReductions free _ rfl
  | reduction op v body iho ihb => exact addTerms_addReductions free _ rfl
  | neg e ih => exact addTerms_addReductions free _ rfl
  | mul a b iha ihb => exact addTerms_addReductions free _ rfl
  | div a b iha ihb => exact addTerms_addReductions free _ rfl

theorem dedupFirst_eq_nil :
    ∀ (l free : List IndexVar), (∀ v ∈ l, v ∈ free) → dedupFirst free l = [] := by
  intro l
  induction l with
  | nil => intro free _; rfl
  | cons u vs ih =>
    intro free h
    have hu : u ∈ free := h u (List.mem_cons_self u vs)
    simp only [dedupFirst, if_pos hu]
    exact ih free fun v hv => h v (List.mem_cons_of_mem _ hv)

theorem addReductions_eq_self (e : IndexExpr) (free : List IndexVar)
    (h : ∀ v ∈ exprVarsRaw e, v ∈ free) : addReductions free e = e := by
  unfold addReductions
  rw [dedupFirst_eq_nil _ _ h]
  rfl

theorem makeReductionRhs_eq_self :
    ∀ (e : IndexExpr) (free : List IndexVar),
      (∀ v ∈ exprVarsRaw e, v ∈ free) → makeReductionRhs free e = e := by
  intro e
  induction e with
  | add a b iha ihb =>
    intro free h
    simp only [makeReductionRhs]
    rw [iha free fun v hv => h v (by simp [exprVarsRaw, hv]),
        ihb free fun v hv => h v (by simp [exprVarsRaw, hv])]
  | sub a b iha ihb =>
    intro free h
    simp only [makeReductionRhs]
    rw [iha free fun v hv => h v (by simp [exprVarsRaw, hv]),
        ihb free fun v hv => h v (by simp [exprVarsRaw, hv])]
  | access a => intro free h; exact addReductions_eq_self _ _ h
  | literal v => intro free h; exact addReductions_eq_self _ _ h
  | reduction op v body iho ihb => intro free h; exact addReductions_eq_self _ _ h
  | neg e ih => intro free h; exact addReductions_eq_self _ _ h
  | mul a b iha ihb => intro free h; exact addReductions_eq_self _ _ h
  | div a b iha ihb => intro free h; exact addReductions_eq_self _ _ h

/-- Whether the expression contains a `Reduction` node binding `v` whose
combinator is the default addition combinator — the shape of the summation
nodes inserted by the einsum lowering. -/
def hasSumBinding (v : IndexVar) : IndexExpr → Bool
  | .reduction op u body =>
      (decide (u = v) && decide (op = addCombinator)) || hasSumBinding v body
  | .neg e => hasSumBinding v e
  | .add a b => hasSumBinding v a || hasSumBinding v b
  | .sub a b => hasSumBinding v a || hasSumBinding v b
  | .mul a b => hasSumBinding v a || hasSumBinding v b
  | .div a b => hasSumBinding v a || hasSumBinding v b
  | _ => false

theorem hasSumBinding_foldr :
    ∀ (rv : List IndexVar) (e : IndexExpr) (v : IndexVar), v ∈ rv →
      hasSumBinding v (rv.foldr sum e) = true := by
  intro rv
  induction rv with
  | nil => intro e v h; exact absurd h (List.not_mem_nil v)
  | cons u rest ih =>
    intro e v h
    simp only [List.foldr_cons, sum, hasSumBinding, Bool.or_eq_true, Bool.and_eq_true,
      decide_eq_true_eq]
    rcases List.mem_cons.mp h with rfl | h'
    · exact Or.inl (by simp)
    · exact Or.inr (ih e v h')

theorem hasSumBinding_addReductions (e : IndexExpr) (free : List IndexVar) (v : IndexVar)
    (hv : v ∈ exprVarsRaw e) (hf : v ∉ free) :
    hasSumBinding v (addReductions free e) = true := by
  unfold addReductions
  exact hasSumBinding_foldr _ e v ((mem_dedupFirst (exprVarsRaw e) free v).mpr ⟨hv, hf⟩)

theorem hasSumBinding_makeReductionRhs :
    ∀ (e : IndexExpr) (free : List IndexVar) (v : IndexVar),
      v ∈ exprVarsRaw e → v ∉ free →
      hasSumBinding v (makeReductionRhs free e) = true := by
  intro e
  induction e with
  | add a b iha ihb =>
    intro free v hv hf
    simp only [exprVarsRaw, List.mem_append] at hv
    simp only [makeReductionRhs, hasSumBinding, Bool.or_eq_true]
    rcases hv with h | h
    · exact Or.inl (iha free v h hf)
    · exact Or.inr (ihb free v h hf)
  | sub a b iha ihb =>
    intro free v hv hf
    simp only [exprVarsRaw, List.mem_append] at hv
    simp only [makeReductionRhs, hasSumBinding, Bool.or_eq_true]
    rcases hv with h | h
    · exact Or.inl (iha free v h hf)
    · exact Or.inr (ihb free v h hf)
  | access a => intro free v hv hf; exact hasSumBinding_addReductions _ _ _ hv hf
  | literal w => intro free v hv hf; exact hasSumBinding_addReductions _ _ _ hv hf
  | reduction op u body iho ihb =>
    intro free v hv hf; exact hasSumBinding_addReductions _ _ _ hv hf
  | neg e ih => intro free v hv hf; exact hasSumBinding_addReductions _ _ _ hv hf
  | mul a b iha ihb => intro free v hv hf; exact hasSumBinding_addReductions _ _ _ hv hf
  | div a b iha ihb => intro free v hv hf; exact hasSumBinding_addReductions _ _ _ hv hf

/-! Concrete identity entities and statements used by the examples of the
spec (section 8): the index variables `i`, `j` (plus a second, distinct
variable also named "i", and the split variables `j1`, `j2`) and the
tensor variables `a`, `B`, `c`, `C`, `A` and a workspace `w`. -/

def exI : IndexVar := ⟨0, "i"⟩
def exJ : IndexVar := ⟨1, "j"⟩
def exI2 : IndexVar := ⟨2, "i"⟩
def exJ1 : IndexVar := ⟨3, "j1"⟩
def exJ2 : IndexVar := ⟨4, "j2"⟩
def exVecA : TensorVar := ⟨0, "a"⟩
def exMatB : TensorVar := ⟨1, "B"⟩
def exVecC : TensorVar := ⟨2, "c"⟩
def exMatA : TensorVar := ⟨3, "A"⟩
def exMatC : TensorVar := ⟨4, "C"⟩
def exWork : TensorVar := ⟨5, "w"⟩

/-- The einsum statement `a(i) = B(i,j) * c(j)` (spec scenario 1). -/
def exMatVec : IndexStmt :=
  .assignment ⟨exVecA, [exI]⟩
    (.mul (.access ⟨exMatB, [exI, exJ]⟩) (.access ⟨exVecC, [exJ]⟩)) none

/-- The einsum statement `A(i,j) = B(i,j) + C(i,j)` (spec scenario 2). -/
def exMatAdd : IndexStmt :=
  .assignment ⟨exMatA, [exI, exJ]⟩
    (.add (.access ⟨exMatB, [exI, exJ]⟩) (.access ⟨exMatC, [exI, exJ]⟩)) none

/-- The reduction-notation statement `a(i) = sum(j, B(i,j)*c(j))`. -/
def exMatVecRed : IndexStmt :=
  .assignment ⟨exVecA, [exI]⟩
    (sum exJ (.mul (.access ⟨exMatB, [exI, exJ]⟩) (.access ⟨exVecC, [exJ]⟩))) none

/-! The claims. -/

/-- Claim C1: for every index statement `s` such that `isEinsumNotation(s)`
is true, the statement returned by `makeReductionNotation(s)` satisfies
`isReductionNotation`. -/
theorem makeReductionNotn_dialect (s : IndexStmt) (h : isEinsumNotn s = true) :
    isReductionNotn (makeReductionNotnStmt s) = true := by
  cases s with
  | assignment lhs rhs op => exact boundCheck_makeReductionRhs rhs lhs.indexVars
  | forallStmt v st => exact absurd h (by simp [isEinsumNotn])
  | whereStmt c p => exact absurd h (by simp [isEinsumNotn])
  | multi s1 s2 => exact absurd h (by simp [isEinsumNotn])
  | sequence d m => exact absurd h (by simp [isEinsumNotn])

/-- Witness for C1 at the einsum statement `a(i) = B(i,j) * c(j)`. -/
theorem makeReductionNotn_dialect_witness :
    isEinsumNotn exMatVec = true ∧ isReductionNotn (makeReductionNotnStmt exMatVec) = true :=
  ⟨by decide, makeReductionNotn_dialect exMatVec (by decide)⟩

/-- The reduction-notation statement `a(i) = sum(i, B(i)) + c(i)`: its
`Reduction` rebinds the free variable `i`, so the workspace producer's
`Forall` over `i` must sit inside the outer `Forall` over `i`. -/
def exShadow : IndexStmt :=
  .assignment ⟨exVecA, [exI]⟩
    (.add (sum exI (.access ⟨exMatB, [exI]⟩)) (.access ⟨exVecC, [exI]⟩)) none

/-- Counterexample to C2 as stated: `a(i) = sum(i, B(i)) + c(i)` satisfies
`isReductionNotation` (the rebound variable `i` is on the lhs, so the
reduction-variable condition is vacuous for it), yet the concrete lowering
must close the reduction's scope in a workspace producer whose `Forall`
rebinds `i` inside the outer `Forall` over `i`, so the result binds `i` by
two `Forall`s and fails `isConcreteNotation`. -/
theorem makeConcreteNotn_dialect_cex :
    isReductionNotn exShadow = true ∧
      isConcreteNotn (makeConcreteNotnStmt exShadow) = false :=
  ⟨by decide, by decide⟩

/-- Claim C2, amended: for every index statement `s` such that
`isReductionNotation(s)` is true and no `Reduction` node in `s` binds a
variable that appears in the lhs access or is bound by an enclosing
`Reduction`, `makeConcreteNotation(s)` satisfies `isConcreteNotation`:
every index variable in it is bound by exactly one `Forall` and no
`Reduction` nodes remain. -/
theorem makeConcreteNotn_dialect (s : IndexStmt) (h1 : isReductionNotn s = true)
    (h2 : noShadowedReductionsStmt s = true) :
    isConcreteNotn (makeConcreteNotnStmt s) = true := by
  cases s with
  | forallStmt v st => exact absurd h1 (by simp [isReductionNotn])
  | whereStmt c p => exact absurd h1 (by simp [isReductionNotn])
  | multi s1 s2 => exact absurd h1 (by simp [isReductionNotn])
  | sequence d m => exact absurd h1 (by simp [isReductionNotn])
  | assignment lhs rhs op =>
    have hbc : boundCheck lhs.indexVars rhs = true := h1
    have hns : noShadowedReductions lhs.indexVars rhs = true := h2
    have hbcore := boundCheck_peel rhs lhs.indexVars hbc
    have hnscore := noShadow_peel rhs lhs.indexVars hns
    unfold makeConcreteNotnStmt isConcreteNotn
    rw [Bool.and_eq_true]
    constructor
    · rw [Bool.not_eq_true', stmtHasReduction_foldr]
      refine stmtHasReduction_wrapWheres _ _ ?_ (lowerExpr_prods_noRed _ 0)
      show stmtHasReduction (.assignment _ _ _) = false
      simp only [stmtHasReduction]
      exact lowerExpr_fst_noRed _ 0
    · refine concreteCheck_foldr _ [] _ (nodup_dedupFirst _ _) (by simp) ?_
      have hiff : ∀ u, u ∈ (peelReductions rhs).1.reverse ++ lhs.indexVars ↔
          u ∈ (dedupFirst [] (lhs.indexVars ++ (peelReductions rhs).1)).reverse
            ++ ([] : List IndexVar) := by
        intro u
        simp [mem_dedupFirst, List.mem_append]
        tauto
      refine concreteCheck_wrapWheres _ _ _ ?_
        (lowerExpr_prods_check _ _ _ 0 hbcore hnscore hiff)
      simp only [concreteCheck, Bool.and_eq_true, List.all_eq_true, decide_eq_true_eq,
        Bool.or_eq_true]
      constructor
      · intro u hu
        rcases List.mem_append.mp hu with hl | hr
        · exact (hiff u).mp (List.mem_append.mpr (Or.inr hl))
        · exact (hiff u).mp (lowerExpr_vars_bound _ _ 0 hbcore u hr)
      · rcases topOp_spec rhs op with ⟨rop, hro⟩ | ⟨hop, hpeel⟩
        · exact Or.inl (by rw [hro]; rfl)
        · cases op with
          | some o => exact Or.inl (by rw [hop]; rfl)
          | none =>
            refine Or.inr ?_
            intro u hu
            have hmem := lowerExpr_vars_bound _ _ 0 hbcore u hu
            rw [hpeel] at hmem
            simpa using hmem

/-- Witness for (amended) C2 at the reduction-notation statement
`a(i) = sum(j, B(i,j)*c(j))`. -/
theorem makeConcreteNotn_dialect_witness :
    isReductionNotn exMatVecRed = true ∧
      noShadowedReductionsStmt exMatVecRed = true ∧
      isConcreteNotn (makeConcreteNotnStmt exMatVecRed) = true :=
  ⟨by decide, by decide, makeConcreteNotn_dialect exMatVecRed (by decide) (by decide)⟩

/-- Claim C8: for every einsum-notation assignment whose rhs uses only index
variables that also appear in the lhs access, `makeReductionNotation`
returns a tree structurally equal to its input (a no-op). -/
theorem makeReductionNotn_noop (lhs : Access) (rhs : IndexExpr) (op : Option IndexExpr)
    (_h1 : isEinsumNotn (.assignment lhs rhs op) = true)
    (h2 : ∀ v ∈ exprVarsRaw rhs, v ∈ lhs.indexVars) :
    equalsStmt (makeReductionNotnStmt (.assignment lhs rhs op))
      (.assignment lhs rhs op) = true := by
  rw [equalsStmt_iff]
  show IndexStmt.assignment lhs (makeReductionRhs lhs.indexVars rhs) op = _
  rw [makeReductionRhs_eq_self rhs lhs.indexVars h2]

/-- Witness for C8 at the einsum statement `A(i,j) = B(i,j) + C(i,j)`
(spec scenario 2). -/
theorem makeReductionNotn_noop_witness :
    equalsStmt (makeReductionNotnStmt exMatAdd) exMatAdd = true :=
  makeReductionNotn_noop ⟨exMatA, [exI, exJ]⟩
    (.add (.access ⟨exMatB, [exI, exJ]⟩) (.access ⟨exMatC, [exI, exJ]⟩)) none
    (by decide) (by decide)

/-- Claim C10: the `Assignment` overload of `makeConcreteNotation` returns a
statement that is itself an assignment (`isa<Assignment>` holds on the
result); it is not a `Forall`-wrapped statement. -/
theorem makeConcreteNotn_assignOverload (a : Assignment) :
    isaAssignment (makeConcreteNotn a).toStmt = true := rfl

/-- Witness for C10 at the assignment `a(i) = sum(j, B(i,j)*c(j))`. -/
theorem makeConcreteNotn_assignOverload_witness :
    isaAssignment (makeConcreteNotn ⟨⟨exVecA, [exI]⟩,
      sum exJ (.mul (.access ⟨exMatB, [exI, exJ]⟩) (.access ⟨exVecC, [exJ]⟩)),
      none⟩).toStmt = true :=
  makeConcreteNotn_assignOverload _

/-- A third index variable `k` and a tensor `D`, for the placement
counterexample. -/
def exK : IndexVar := ⟨5, "k"⟩

/-- A tensor variable `D` used by the placement counterexample. -/
def exMatD : TensorVar := ⟨6, "D"⟩

/-- The einsum statement `a(i) = (B(i,k) * c(k)) * D(i)`: all uses of the
summation variable `k` lie inside the inner product `B(i,k)*c(k)`, a proper
subtree of the additive term. -/
def exNarrow : IndexStmt :=
  .assignment ⟨exVecA, [exI]⟩
    (.mul (.mul (.access ⟨exMatB, [exI, exK]⟩) (.access ⟨exVecC, [exK]⟩))
      (.access ⟨exMatD, [exI]⟩)) none

/-- Counterexample to C3 as stated: for the einsum assignment
`a(i) = (B(i,k)*c(k))*D(i)` the narrowest subtree containing all of `k`'s
uses is the inner product `B(i,k)*c(k)`, but the lowering provably wraps
the `Reduction` around the whole term — the result is
`a(i) = sum(k, (B(i,k)*c(k))*D(i))` and not the narrowest-subtree placement
`a(i) = sum(k, B(i,k)*c(k)) * D(i)` the claim specifies. -/
theorem makeReductionNotn_insertsSums_cex :
    isEinsumNotn exNarrow = true ∧
    makeReductionNotnStmt exNarrow =
      .assignment ⟨exVecA, [exI]⟩
        (sum exK (.mul (.mul (.access ⟨exMatB, [exI, exK]⟩) (.access ⟨exVecC, [exK]⟩))
          (.access ⟨exMatD, [exI]⟩))) none ∧
    makeReductionNotnStmt exNarrow ≠
      .assignment ⟨exVecA, [exI]⟩
        (.mul (sum exK (.mul (.access ⟨exMatB, [exI, exK]⟩) (.access ⟨exVecC, [exK]⟩)))
          (.access ⟨exMatD, [exI]⟩)) none :=
  ⟨by decide, by decide, by decide⟩

/-- Claim C3, amended: for every einsum-notation assignment,
`makeReductionNotation` rewrites each additive term of the rhs by wrapping
the whole term in `Reduction` nodes with addition as the default
combinator, one per index variable of the term not in the lhs access,
nested in order of first appearance — a position enclosing all of the
variable's uses in its term, and the narrowest such position exactly when
the uses span the term; in particular `a(i) = B(i,j) * c(j)` becomes
`a(i) = sum(j, B(i,j)*c(j))`.  Stated as: the additive terms of the output
are the `addReductions`-rewrites of the input's terms; each rewritten term
is, observed through `peelReductions`, the unchanged term under a spine
binding exactly its non-free variables in first-appearance order; each
such binding is an addition-combinator summation. -/
theorem makeReductionNotn_insertsSums :
    (∀ (free : List IndexVar) (e : IndexExpr),
        addTerms (makeReductionRhs free e) = (addTerms e).map (addReductions free)) ∧
    (∀ (free : List IndexVar) (t : IndexExpr), hasReductionNode t = false →
        peelReductions (addReductions free t) = (dedupFirst free (exprVarsRaw t), t)) ∧
    (∀ (free : List IndexVar) (t : IndexExpr) (v : IndexVar),
        v ∈ exprVarsRaw t → v ∉ free →
        hasSumBinding v (addReductions free t) = true) ∧
    makeReductionNotnStmt exMatVec =
      .assignment ⟨exVecA, [exI]⟩
        (sum exJ (.mul (.access ⟨exMatB, [exI, exJ]⟩) (.access ⟨exVecC, [exJ]⟩))) none :=
  ⟨addTerms_makeReductionRhs,
   fun free t ht => peelReductions_foldr_sum t ht _,
   fun free t v hv hf => hasSumBinding_addReductions t free v hv hf,
   by decide⟩

/-- Witness for (amended) C3: in the lowering of `a(i) = B(i,j) * c(j)` the
variable `j` receives a summation binding over its term. -/
theorem makeReductionNotn_insertsSums_witness :
    hasSumBinding exJ (addReductions [exI]
      (.mul (.access ⟨exMatB, [exI, exJ]⟩) (.access ⟨exVecC, [exJ]⟩))) = true :=
  makeReductionNotn_insertsSums.2.2.1 [exI]
    (.mul (.access ⟨exMatB, [exI, exJ]⟩) (.access ⟨exVecC, [exJ]⟩)) exJ
    (by decide) (by decide)

/-- Claim C4: structural equality on `IndexExpr` and `IndexStmt` is an
equivalence relation (reflexive, symmetric, transitive); two trees built by
identical combinator calls on identical identity entities are equal; and
replacing an `IndexVar` by a different `IndexVar` with the same name makes
the trees unequal. -/
theorem equals_equivalence :
    (∀ x : IndexExpr, equalsExpr x x = true) ∧
    (∀ x y : IndexExpr, equalsExpr x y = true → equalsExpr y x = true) ∧
    (∀ x y z : IndexExpr, equalsExpr x y = true → equalsExpr y z = true →
        equalsExpr x z = true) ∧
    (∀ s : IndexStmt, equalsStmt s s = true) ∧
    (∀ s t : IndexStmt, equalsStmt s t = true → equalsStmt t s = true) ∧
    (∀ s t u : IndexStmt, equalsStmt s t = true → equalsStmt t u = true →
        equalsStmt s u = true) ∧
    equalsExpr (.add (.access ⟨exMatB, [exI, exJ]⟩) (.access ⟨exMatC, [exI, exJ]⟩))
      (.add (.access ⟨exMatB, [exI, exJ]⟩) (.access ⟨exMatC, [exI, exJ]⟩)) = true ∧
    exI2.name = exI.name ∧ exI2 ≠ exI ∧
    equalsExpr (.access ⟨exMatB, [exI, exJ]⟩) (.access ⟨exMatB, [exI2, exJ]⟩) = false := by
  refine ⟨fun x => (equalsExpr_iff x x).mpr rfl,
    fun x y h => (equalsExpr_iff y x).mpr ((equalsExpr_iff x y).mp h).symm,
    fun x y z h1 h2 => (equalsExpr_iff x z).mpr
      (((equalsExpr_iff x y).mp h1).trans ((equalsExpr_iff y z).mp h2)),
    fun s => (equalsStmt_iff s s).mpr rfl,
    fun s t h => (equalsStmt_iff t s).mpr ((equalsStmt_iff s t).mp h).symm,
    fun s t u h1 h2 => (equalsStmt_iff s u).mpr
      (((equalsStmt_iff s t).mp h1).trans ((equalsStmt_iff t u).mp h2)),
    by decide, by decide, by decide, by decide⟩

/-- Witness for C4: symmetry applied at a concrete pair of equal trees. -/
theorem equals_equivalence_witness :
    equalsExpr (.access ⟨exVecC, [exJ]⟩) (.access ⟨exVecC, [exJ]⟩) = true :=
  equals_equivalence.2.1 (.access ⟨exVecC, [exJ]⟩) (.access ⟨exVecC, [exJ]⟩) (by decide)

/-- Claim C5: for every constructed node, `isa` of its own kind is true and
`isa` of every other kind is false (for statements the five kinds are
mutually exclusive and exhaustive; for expressions the three castable
kinds are mutually exclusive and all false on the arithmetic nodes);
`to` of a kind succeeds exactly when the corresponding `isa` holds —
otherwise the contract-fault branch (`none`) is reached, never a silently
wrong cast — and a successful `to` exposes the original field values. -/
theorem isa_to_consistency :
    (∀ s : IndexStmt, (isaAssignment s).toNat + (isaForall s).toNat + (isaWhere s).toNat
        + (isaMulti s).toNat + (isaSequence s).toNat = 1) ∧
    (∀ e : IndexExpr,
        (isaAccessE e).toNat + (isaLiteralE e).toNat + (isaReductionE e).toNat ≤ 1) ∧
    (∀ s : IndexStmt, (toAssignment s).isSome = isaAssignment s) ∧
    (∀ s : IndexStmt, (toForall s).isSome = isaForall s) ∧
    (∀ s : IndexStmt, (toWhere s).isSome = isaWhere s) ∧
    (∀ s : IndexStmt, (toMulti s).isSome = isaMulti s) ∧
    (∀ s : IndexStmt, (toSequence s).isSome = isaSequence s) ∧
    (∀ e : IndexExpr, (toAccessE e).isSome = isaAccessE e) ∧
    (∀ e : IndexExpr, (toLiteralE e).isSome = isaLiteralE e) ∧
    (∀ e : IndexExpr, (toReductionE e).isSome = isaReductionE e) ∧
    (∀ (lhs : Access) (rhs : IndexExpr) (op : Option IndexExpr),
        toAssignment (.assignment lhs rhs op) = some ⟨lhs, rhs, op⟩) ∧
    (∀ (v : IndexVar) (s : IndexStmt), toForall (.forallStmt v s) = some (v, s)) ∧
    (∀ c p : IndexStmt, toWhere (.whereStmt c p) = some (c, p)) ∧
    (∀ s1 s2 : IndexStmt, toMulti (.multi s1 s2) = some (s1, s2)) ∧
    (∀ d m : IndexStmt, toSequence (.sequence d m) = some (d, m)) ∧
    (∀ a : Access, toAccessE (.access a) = some a) ∧
    (∀ v : LitVal, toLiteralE (.literal v) = some v) ∧
    (∀ (o : IndexExpr) (v : IndexVar) (b : IndexExpr),
        toReductionE (.reduction o v b) = some (o, v, b)) := by
  refine ⟨fun s => ?_, fun e => ?_, fun s => ?_, fun s => ?_, fun s => ?_, fun s => ?_,
    fun s => ?_, fun e => ?_, fun e => ?_, fun e => ?_, fun lhs rhs op => rfl,
    fun v s => rfl, fun c p => rfl, fun s1 s2 => rfl, fun d m => rfl, fun a => rfl,
    fun v => rfl, fun o v b => rfl⟩
  · cases s <;> rfl
  · cases e <;> simp [isaAccessE, isaLiteralE, isaReductionE]
  · cases s <;> rfl
  · cases s <;> rfl
  · cases s <;> rfl
  · cases s <;> rfl
  · cases s <;> rfl
  · cases e <;> rfl
  · cases e <;> rfl
  · cases e <;> rfl

/-- Witness for C5: kind exclusivity evaluated at a concrete statement. -/
theorem isa_to_consistency_witness :
    (isaAssignment exMatVec).toNat + (isaForall exMatVec).toNat + (isaWhere exMatVec).toNat
        + (isaMulti exMatVec).toNat + (isaSequence exMatVec).toNat = 1 :=
  isa_to_consistency.1 exMatVec

/-- Claim C6: `splitOperator(old, left, right)` on a binary expression
rewrites the subtree so that `left` computes the left operand into a
temporary workspace and `right` computes the full expression with the left
operand replaced by an access into that temporary; on any non-binary
expression (e.g. a unary negation) it is a no-op that leaves the tree
unchanged and does not fault. -/
theorem splitOperator_spec :
    (∀ (old l r : IndexVar) (w : TensorVar) (e : IndexExpr),
        isBinaryExpr e = false → splitOperator old l r w e = (e, none)) ∧
    (∀ (old l r : IndexVar) (w : TensorVar) (a b : IndexExpr),
        splitOperator old l r w (.add a b) =
          (.add (workspaceAccess old r w a) (substIndexVar old r b),
           some (workspaceDef old l w a)) ∧
        splitOperator old l r w (.sub a b) =
          (.sub (workspaceAccess old r w a) (substIndexVar old r b),
           some (workspaceDef old l w a)) ∧
        splitOperator old l r w (.mul a b) =
          (.mul (workspaceAccess old r w a) (substIndexVar old r b),
           some (workspaceDef old l w a)) ∧
        splitOperator old l r w (.div a b) =
          (.div (workspaceAccess old r w a) (substIndexVar old r b),
           some (workspaceDef old l w a))) ∧
    splitOperator exJ exJ1 exJ2 exWork
        (.add (.access ⟨exMatB, [exI, exJ]⟩) (.access ⟨exMatC, [exI, exJ]⟩)) =
      (.add (.access ⟨exWork, [exI, exJ2]⟩) (.access ⟨exMatC, [exI, exJ2]⟩),
       some ⟨⟨exWork, [exI, exJ1]⟩, .access ⟨exMatB, [exI, exJ1]⟩, none⟩) ∧
    splitOperator exJ exJ1 exJ2 exWork (.neg (.access ⟨exMatB, [exI, exJ]⟩)) =
      (.neg (.access ⟨exMatB, [exI, exJ]⟩), none) := by
  refine ⟨?_, fun old l r w a b => ⟨rfl, rfl, rfl, rfl⟩, by decide, by decide⟩
  intro old l r w e he
  cases e with
  | add a b => simp [isBinaryExpr] at he
  | sub a b => simp [isBinaryExpr] at he
  | mul a b => simp [isBinaryExpr] at he
  | div a b => simp [isBinaryExpr] at he
  | access a => rfl
  | literal v => rfl
  | reduction op v body => rfl
  | neg e => rfl

/-- Witness for C6: the no-op branch applied to a concrete non-binary
expression. -/
theorem splitOperator_spec_witness :
    splitOperator exJ exJ1 exJ2 exWork (.access ⟨exVecC, [exJ]⟩) =
      (.access ⟨exVecC, [exJ]⟩, none) :=
  splitOperator_spec.1 exJ exJ1 exJ2 exWork (.access ⟨exVecC, [exJ]⟩) (by decide)

/-- Claim C7: for every assignment, the union of `getFreeVars()` and
`getReductionVars()` equals the set returned by `getIndexVars()` on the
statement, the two sets are disjoint, and `getIndexVars` returns the free
and reduction variables with no duplicates. -/
theorem freeReductionPartition (a : Assignment) :
    a.getFreeVars.toFinset ∪ a.getReductionVars.toFinset =
        a.toStmt.getIndexVars.toFinset ∧
    Disjoint a.getFreeVars.toFinset a.getReductionVars.toFinset ∧
    a.toStmt.getIndexVars.Nodup := by
  obtain ⟨lhs, rhs, op⟩ := a
  refine ⟨?_, ?_, nodup_dedupFirst _ _⟩
  · ext v
    simp only [Finset.mem_union, List.mem_toFinset, Assignment.getFreeVars,
      Assignment.getReductionVars, Assignment.toStmt, IndexStmt.getIndexVars,
      stmtVarsRaw, mem_dedupFirst, List.mem_append, List.not_mem_nil,
      not_false_iff, and_true]
    constructor
    · rintro (h | ⟨h1, _⟩)
      · exact Or.inl h
      · exact Or.inr h1
    · rintro (h | h)
      · exact Or.inl h
      · by_cases hl : v ∈ lhs.indexVars
        · exact Or.inl hl
        · exact Or.inr ⟨h, hl⟩
  · rw [Finset.disjoint_left]
    intro v hv hv2
    simp only [List.mem_toFinset, Assignment.getFreeVars] at hv
    simp only [List.mem_toFinset, Assignment.getReductionVars, mem_dedupFirst] at hv2
    exact hv2.2 hv

/-- Witness for C7: the partition evaluated at the concrete assignment
`a(i) = B(i,j)`. -/
theorem freeReductionPartition_witness :
    ((⟨⟨exVecA, [exI]⟩, .access ⟨exMatB, [exI, exJ]⟩, none⟩ :
        Assignment).toStmt.getIndexVars).Nodup :=
  (freeReductionPartition ⟨⟨exVecA, [exI]⟩, .access ⟨exMatB, [exI, exJ]⟩, none⟩).2.2

end TacoIR
